import Mathlib

/-
Verification of the LogAnalysis segment-processing pipeline.

Shallow embedding of the repository sources:
  logginganalysis/models/extraction.py   (extraction result data model)
  logginganalysis/models/chunk.py        (LogChunk / LogChunks)
  logginganalysis/extraction/extractor.py (LogExtractor.extract_from_chunk / extract_from_chunks)
  logginganalysis/chunking/splitter.py   (LogChunker.chunk_log)
  logginganalysis/utils/rate_limiter.py  (TokenBucket / SlidingWindow / RateLimiter)

Python text is modelled as `List Char` (Python `len`/`find`/slicing count
characters), Python `float` time/percentage arithmetic as `ℚ`, and the opaque
asynchronous chain call as an explicit `Except`-valued outcome parameter.
Nondeterministic completion order of the concurrently gathered per-chunk
operations is modelled by quantifying over an arbitrary permutation of the
launch-indexed outcome list.
-/

/-- Values stored in a chunk metadata dict (`str` keys mapping to ints or strings
in the code paths modelled here). -/
inductive MetaVal where
  | nat (n : Nat)
  | str (s : String)
  deriving DecidableEq, Repr

/-- models/extraction.py `ExceptionInfo` (stack traces already normalized to a
single string by its `before` validator). -/
structure ExceptionInfo where
  type : String
  message : String
  stack_trace : Option String := none
  occurrence_count : Nat := 1
  severity : Option String := none
  deriving DecidableEq, Repr

/-- models/extraction.py `LibraryReference`. -/
structure LibraryReference where
  name : String
  version : Option String := none
  context : Option String := none
  path : Option String := none
  type : Option String := none
  source : Option String := none
  deriving DecidableEq, Repr

/-- models/extraction.py `ProblematicBehavior`. The stored `severity` is the
value left after the `normalize_severity` before-validator and the Literal
check have run. -/
structure ProblematicBehavior where
  category : Option String := none
  description : String
  severity : String
  details : Option String := none
  context : Option String := none
  occurrences : List String := []
  deriving DecidableEq, Repr

/-- models/extraction.py `ProblematicBehavior.normalize_severity` (a
`mode="before"` field validator). -/
def normalize_severity (v : String) : String :=
  if v = "warning" then ("low")
  else if v = "info" then ("low")
  else v

/-- The six input values accepted by the `Literal` type annotation of
`ProblematicBehavior.severity`. -/
def severity_literals : List String :=
  ["low", "medium", "high", "critical", "warning", "info"]

/-- Pydantic construction of a `ProblematicBehavior` from a severity input:
the before-validator `normalize_severity` runs first, then the `Literal`
annotation validates the normalized value; construction fails otherwise. -/
def mkProblematicBehavior (description : String) (severity : String) :
    Option ProblematicBehavior :=
  let s := normalize_severity severity
  if s ∈ severity_literals then
    some { description := description, severity := s }
  else
    none

/-- models/extraction.py `ChunkExtractionResult`. -/
structure ChunkExtractionResult where
  chunk_id : Option String := none
  exceptions : List ExceptionInfo := []
  libraries : List LibraryReference := []
  problematic_behaviors : List ProblematicBehavior := []
  summary : String
  deriving DecidableEq, Repr

/-- models/chunk.py `LogChunk` (the uuid-valued `id` is kept abstract as a
string; `content` is a character list). -/
structure LogChunkR where
  id : String
  content : List Char
  start_index : Int
  end_index : Int
  metadata : List (String × MetaVal)
  deriving DecidableEq, Repr

/-- models/chunk.py `LogChunks`. -/
structure LogChunksR where
  chunks : List LogChunkR
  total_size : Nat
  original_log_size : Nat
  deriving DecidableEq, Repr

/-- Placeholder chunk used to express Python list indexing `chunks.chunks[index]`
totally; all verified uses index within bounds. -/
def defaultChunk : LogChunkR :=
  { id := "", content := [], start_index := 0, end_index := 0, metadata := [] }

/-- utils/exceptions.py: structured `details` payloads that extractor.py attaches
to an `ExtractionError` (either single-chunk info or the batch error list). -/
inductive ExcDetails where
  | chunkInfo (chunk_id : String) (chunk_size : Nat)
  | batchErrors (errors : List (Nat × String × String))
  deriving DecidableEq, Repr

/-- utils/exceptions.py `ExtractionError(message, details)`. -/
structure ExtractionError where
  message : String
  details : Option ExcDetails
  deriving DecidableEq, Repr

/-- `str(e)` of an extraction error as used when the orchestrator stores the
cause of a failed chunk; abstracted to the message text. -/
def errStr (e : ExtractionError) : String := e.message

/-- A structured progress event pushed to `progress_callback` by
`extract_from_chunk` (extractor.py lines 103-114, 147-163, 173-187). The
`chunk_index` field stores the 1-based index, as in the code. -/
structure ProgressEvent where
  step : String
  chunk_id : String
  chunk_index : Nat
  total_chunks : Nat
  progress_percentage : ℚ
  status : String
  exceptions_found : Option Nat := none
  behaviors_found : Option Nat := none
  libraries_found : Option Nat := none
  error : Option String := none
  deriving DecidableEq, Repr

/-- Outcome of the opaque chain call `await self.chain.ainvoke(...)`: a raised
exception (carried as its message string), or `None`, or a result object. -/
abbrev ChainOutcome := Except String (Option ChunkExtractionResult)

/-- extractor.py lines 126-139: the result produced in the non-raising branch of
`extract_from_chunk` — a `None` chain result is replaced by a well-defined empty
result, and `result.chunk_id` is unconditionally overwritten with the chunk id. -/
def chunk_success_result (chunk : LogChunkR) (out : Option ChunkExtractionResult) :
    ChunkExtractionResult :=
  match out with
  | none =>
      { chunk_id := some chunk.id
        exceptions := []
        libraries := []
        problematic_behaviors := []
        summary := "AI 返回空结果，无法提取信息" }
  | some r => { r with chunk_id := some chunk.id }

/-- extractor.py `LogExtractor.extract_from_chunk` (lines 79-192): emits a
"processing" event, invokes the opaque chain (the rate-limiter wait only blocks
and never changes the outcome, so it is not part of the state), then either
returns the success result with a "completed" event, or wraps the failure into
an `ExtractionError` after a "failed" event. Returns the emitted events and the
outcome. -/
def extract_from_chunk (chunk : LogChunkR) (chunk_index total_chunks : Nat)
    (chain_result : ChainOutcome) :
    List ProgressEvent × Except ExtractionError ChunkExtractionResult :=
  let processingPct : ℚ :=
    if 0 < total_chunks then (chunk_index : ℚ) / (total_chunks : ℚ) * 100 else 0
  let processingEvent : ProgressEvent :=
    { step := "extraction", chunk_id := chunk.id, chunk_index := chunk_index + 1,
      total_chunks := total_chunks, progress_percentage := processingPct,
      status := "processing" }
  let donePct : ℚ :=
    if 0 < total_chunks then ((chunk_index : ℚ) + 1) / (total_chunks : ℚ) * 100 else 0
  match chain_result with
  | Except.ok out =>
      let result := chunk_success_result chunk out
      let completedEvent : ProgressEvent :=
        { step := "extraction", chunk_id := chunk.id, chunk_index := chunk_index + 1,
          total_chunks := total_chunks, progress_percentage := donePct,
          status := "completed",
          exceptions_found := some result.exceptions.length,
          behaviors_found := some result.problematic_behaviors.length,
          libraries_found := some result.libraries.length }
      ([processingEvent, completedEvent], Except.ok result)
  | Except.error e =>
      let failedEvent : ProgressEvent :=
        { step := "extraction", chunk_id := chunk.id, chunk_index := chunk_index + 1,
          total_chunks := total_chunks, progress_percentage := donePct,
          status := "failed", error := some e }
      ([processingEvent, failedEvent],
        Except.error
          { message := "从块 " ++ chunk.id ++ " 提取信息失败: " ++ e
            details := some (ExcDetails.chunkInfo chunk.id chunk.content.length) })

/-- extractor.py lines 232-234: the gathered launch-indexed outcomes. The i-th
launched task runs `extract_with_semaphore(chunk, i)`, which tags the outcome of
`extract_from_chunk(chunks.chunks[i], i, len(chunks.chunks))` with index `i`,
catching a raised `ExtractionError` as a value. `chain` gives the opaque chain
outcome observed by the i-th call. -/
def gather_results (cs : List LogChunkR) (chain : Nat → ChainOutcome) :
    List (Nat × Except ExtractionError ChunkExtractionResult) :=
  (List.range cs.length).map fun i =>
    (i, (extract_from_chunk (cs.getD i defaultChunk) i cs.length (chain i)).2)

/-- extractor.py line 237 `indexed_results.sort(key=lambda x: x[0])`. -/
def sortByIdx {α : Type} (l : List (Nat × α)) : List (Nat × α) :=
  List.insertionSort (fun a b => a.1 ≤ b.1) l

/-- extractor.py `LogExtractor.extract_from_chunks` (lines 194-271) after the
concurrent gather: sorts the tagged outcomes by original index, splits them into
successful extractions and `(index, chunk_id, str(error))` error tuples, and
either returns the ordered extractions or raises one aggregate error. The
gathered list is passed in explicitly so that theorems can quantify over every
completion order (any permutation of `gather_results`). -/
def extract_from_chunks (chunks : LogChunksR)
    (indexed_results : List (Nat × Except ExtractionError ChunkExtractionResult)) :
    Except ExtractionError (List ChunkExtractionResult) :=
  if chunks.chunks.isEmpty then Except.ok []
  else
    let sorted := sortByIdx indexed_results
    let extractions := sorted.filterMap fun p =>
      match p.2 with
      | Except.ok r => some r
      | Except.error _ => none
    let errors := sorted.filterMap fun p =>
      match p.2 with
      | Except.error e => some (p.1, (chunks.chunks.getD p.1 defaultChunk).id, errStr e)
      | Except.ok _ => none
    if errors.isEmpty then Except.ok extractions
    else
      Except.error
        { message := "提取过程中发生 " ++ toString errors.length ++ " 个错误"
          details := some (ExcDetails.batchErrors errors) }

/-- The ordered success results: entry `i` is the processed result of chunk `i`
(with its `chunk_id` overwritten by the orchestrator). -/
def okResults (cs : List LogChunkR) (chain : Nat → ChainOutcome) :
    List ChunkExtractionResult :=
  (List.range cs.length).map fun i =>
    chunk_success_result (cs.getD i defaultChunk) ((chain i).toOption.getD none)

/-- The aggregate error tuples: one `(index, chunk_id, cause)` entry per failing
chunk, in index order. -/
def failTuples (cs : List LogChunkR) (chain : Nat → ChainOutcome) :
    List (Nat × String × String) :=
  (List.range cs.length).filterMap fun i =>
    match chain i with
    | Except.error e =>
        some (i, (cs.getD i defaultChunk).id,
          errStr
            { message := "从块 " ++ (cs.getD i defaultChunk).id ++ " 提取信息失败: " ++ e
              details := some (ExcDetails.chunkInfo (cs.getD i defaultChunk).id
                (cs.getD i defaultChunk).content.length) })
    | Except.ok _ => none

/-- C10: every `ProblematicBehavior` constructed with severity "warning" or
"info" stores severity "low", and every successfully constructed
`ProblematicBehavior` has severity among "low", "medium", "high", "critical",
although six input values are accepted. -/
theorem problematic_behavior_severity_normalized :
    (∀ d : String, mkProblematicBehavior d ("warning") =
        some { description := d, severity := "low" }) ∧
    (∀ d : String, mkProblematicBehavior d ("info") =
        some { description := d, severity := "low" }) ∧
    (∀ (d v : String) (pb : ProblematicBehavior),
      mkProblematicBehavior d v = some pb →
        pb.severity ∈ ["low", "medium", "high", "critical"]) := by
  refine ⟨fun d => rfl, fun d => rfl, ?_⟩
  intro d v pb h
  unfold mkProblematicBehavior at h
  by_cases h1 : normalize_severity v ∈ severity_literals
  · rw [if_pos h1] at h
    have hpb : pb.severity = normalize_severity v := by
      cases h
      rfl
    rw [hpb]
    unfold normalize_severity at h1 ⊢
    by_cases hw : v = "warning"
    · simp [hw]
    · by_cases hi : v = "info"
      · simp [hw, hi]
      · rw [if_neg hw, if_neg hi] at h1 ⊢
        unfold severity_literals at h1
        simp only [List.mem_cons, List.mem_singleton] at h1 ⊢
        rcases h1 with h1 | h1 | h1 | h1 | h1 | h1 <;> simp_all
  · rw [if_neg h1] at h
    exact absurd h (by simp)

/-- Witness for C10: the concrete input "warning" yields a constructed behavior
whose stored severity is "low", in the four-value set. -/
theorem problematic_behavior_severity_normalized_witness :
    mkProblematicBehavior ("desc") ("warning") =
      some { description := "desc", severity := "low" } ∧
    ({ description := "desc", severity := "low" : ProblematicBehavior }).severity ∈
      ["low", "medium", "high", "critical"] :=
  ⟨problematic_behavior_severity_normalized.1 ("desc"),
    problematic_behavior_severity_normalized.2.2 ("desc") ("warning")
      { description := "desc", severity := "low" }
      (problematic_behavior_severity_normalized.1 ("desc"))⟩

/-- C5: a `None` chain result is substituted by a well-defined empty
`ChunkExtractionResult` (empty fact lists and a sentinel summary) rather than
treated as failure, and in every successful case the returned result carries
the input chunk id, overwriting whatever the opaque operation assigned. -/
theorem extract_from_chunk_none_and_id_overwrite :
    (∀ (chunk : LogChunkR) (i n : Nat),
      (extract_from_chunk chunk i n (Except.ok none)).2 =
        Except.ok { chunk_id := some chunk.id, exceptions := [], libraries := [],
                    problematic_behaviors := [],
                    summary := "AI 返回空结果，无法提取信息" }) ∧
    (∀ (chunk : LogChunkR) (i n : Nat) (r : ChunkExtractionResult),
      (extract_from_chunk chunk i n (Except.ok (some r))).2 =
        Except.ok { r with chunk_id := some chunk.id }) := by
  constructor <;> intros <;> rfl

instance idxLtAntisymm {α : Type} : IsAntisymm (Nat × α) (fun a b => a.1 < b.1) :=
  ⟨fun _ _ h1 h2 => absurd (Nat.lt_trans h1 h2) (Nat.lt_irrefl _)⟩

instance idxLeTotal {α : Type} : IsTotal (Nat × α) (fun a b => a.1 ≤ b.1) :=
  ⟨fun a b => Nat.le_total a.1 b.1⟩

instance idxLeTrans {α : Type} : IsTrans (Nat × α) (fun a b => a.1 ≤ b.1) :=
  ⟨fun _ _ _ h1 h2 => Nat.le_trans h1 h2⟩

/-- Sorting any permutation of a list whose first components are strictly
increasing recovers that list: this is why the sort by original index undoes
any completion order. -/
theorem sortByIdx_eq_of_perm {α : Type} {l target : List (Nat × α)}
    (hperm : l.Perm target)
    (ht : target.Sorted fun a b => a.1 < b.1) :
    sortByIdx l = target := by
  have hs : (sortByIdx l).Sorted fun a b => a.1 ≤ b.1 :=
    List.sorted_insertionSort _ l
  have hp : (sortByIdx l).Perm target :=
    (List.perm_insertionSort _ l).trans hperm
  have hne : (sortByIdx l).Pairwise fun a b => a.1 ≠ b.1 := by
    have htne : target.Pairwise fun a b => a.1 ≠ b.1 :=
      ht.imp fun h => Nat.ne_of_lt h
    exact (hp.pairwise_iff (fun h => Ne.symm h)).mpr htne
  have hlt : (sortByIdx l).Sorted fun a b => a.1 < b.1 :=
    (hs.and hne).imp fun h => lt_of_le_of_ne h.1 h.2
  exact List.eq_of_perm_of_sorted hp hlt ht

/-- The gathered outcome list is tagged with strictly increasing launch indices. -/
theorem gather_results_sorted (cs : List LogChunkR) (chain : Nat → ChainOutcome) :
    (gather_results cs chain).Sorted fun a b => a.1 < b.1 := by
  unfold gather_results
  exact List.pairwise_map.mpr (List.pairwise_lt_range cs.length)

/-- Helper: a `filterMap` over `range n` whose body is everywhere `some` is the
corresponding `map`. -/
theorem filterMap_range_eq_map {β : Type} (f : Nat → Option β) (g : Nat → β) (n : Nat)
    (h : ∀ i < n, f i = some (g i)) :
    (List.range n).filterMap f = (List.range n).map g := by
  induction n with
  | zero => rfl
  | succ n ih =>
      rw [List.range_succ, List.filterMap_append, List.map_append,
        ih fun i hi => h i (Nat.lt_succ_of_lt hi)]
      simp [List.filterMap_cons, h n (Nat.lt_succ_self n)]

/-- Helper: a `filterMap` over `range n` whose body is everywhere `none` is empty. -/
theorem filterMap_range_eq_nil {β : Type} (f : Nat → Option β) (n : Nat)
    (h : ∀ i < n, f i = none) :
    (List.range n).filterMap f = [] := by
  induction n with
  | zero => rfl
  | succ n ih =>
      rw [List.range_succ, List.filterMap_append,
        ih fun i hi => h i (Nat.lt_succ_of_lt hi)]
      simp [List.filterMap_cons, h n (Nat.lt_succ_self n)]

/-- Helper: two `filterMap`s over `range n` agree when their bodies agree below `n`. -/
theorem filterMap_range_congr {β : Type} {f g : Nat → Option β} (n : Nat)
    (h : ∀ i < n, f i = g i) :
    (List.range n).filterMap f = (List.range n).filterMap g :=
  List.filterMap_congr fun i hi => h i (List.mem_range.mp hi)

/-- The wrapped per-chunk call of a non-raising chain outcome is the tagged
success result. -/
theorem gather_snd_ok (cs : List LogChunkR) (chain : Nat → ChainOutcome) (i : Nat)
    (h : (chain i).isOk = true) :
    (extract_from_chunk (cs.getD i defaultChunk) i cs.length (chain i)).2 =
      Except.ok (chunk_success_result (cs.getD i defaultChunk)
        ((chain i).toOption.getD none)) := by
  cases hc : chain i with
  | ok out => rfl
  | error e => rw [hc] at h; simp [Except.isOk, Except.toBool] at h

/-- The orchestrator always reports the input chunk id on a success result. -/
theorem chunk_success_result_chunk_id (c : LogChunkR) (out : Option ChunkExtractionResult) :
    (chunk_success_result c out).chunk_id = some c.id := by
  cases out <;> rfl

/-- C1: for every chunk set and every non-failing per-chunk operation, the batch
extraction returns exactly one result per input chunk, `result[i]` being the
processed outcome of `chunks.chunks[i]` (carrying its id), regardless of the
completion order (any permutation of the gathered tagged outcomes); no result is
dropped. -/
theorem extract_from_chunks_ordered (chunks : LogChunksR) (chain : Nat → ChainOutcome)
    (indexed : List (Nat × Except ExtractionError ChunkExtractionResult))
    (hperm : indexed.Perm (gather_results chunks.chunks chain))
    (hok : ∀ i < chunks.chunks.length, (chain i).isOk = true) :
    ∃ results : List ChunkExtractionResult,
      extract_from_chunks chunks indexed = Except.ok results ∧
      results.length = chunks.chunks.length ∧
      ∀ (i : Nat) (hi : i < results.length),
        results[i] = chunk_success_result (chunks.chunks.getD i defaultChunk)
            ((chain i).toOption.getD none) ∧
        results[i].chunk_id = some (chunks.chunks.getD i defaultChunk).id := by
  refine ⟨okResults chunks.chunks chain, ?_, ?_, ?_⟩
  · by_cases hE : chunks.chunks.isEmpty
    · have h0 : chunks.chunks = [] := List.isEmpty_iff.mp hE
      simp [extract_from_chunks, hE, okResults, h0]
    · simp only [extract_from_chunks]
      rw [if_neg hE]
      rw [sortByIdx_eq_of_perm hperm (gather_results_sorted chunks.chunks chain)]
      unfold gather_results
      rw [List.filterMap_map, List.filterMap_map]
      have hext : (List.range chunks.chunks.length).filterMap
          ((fun p : Nat × Except ExtractionError ChunkExtractionResult =>
            match p.2 with
            | Except.ok r => some r
            | Except.error _ => none) ∘ fun i =>
              (i, (extract_from_chunk (chunks.chunks.getD i defaultChunk) i
                chunks.chunks.length (chain i)).2)) =
          (List.range chunks.chunks.length).map fun i =>
            chunk_success_result (chunks.chunks.getD i defaultChunk)
              ((chain i).toOption.getD none) := by
        apply filterMap_range_eq_map
        intro i hi
        simp only [Function.comp]
        rw [gather_snd_ok chunks.chunks chain i (hok i hi)]
      have herr : (List.range chunks.chunks.length).filterMap
          ((fun p : Nat × Except ExtractionError ChunkExtractionResult =>
            match p.2 with
            | Except.error e =>
                some (p.1, (chunks.chunks.getD p.1 defaultChunk).id, errStr e)
            | Except.ok _ => none) ∘ fun i =>
              (i, (extract_from_chunk (chunks.chunks.getD i defaultChunk) i
                chunks.chunks.length (chain i)).2)) = [] := by
        apply filterMap_range_eq_nil
        intro i hi
        simp only [Function.comp]
        rw [gather_snd_ok chunks.chunks chain i (hok i hi)]
      rw [hext, herr]
      simp [okResults]
  · simp [okResults]
  · intro i hi
    have hlen : i < chunks.chunks.length := by
      simpa [okResults] using hi
    have hval : (okResults chunks.chunks chain)[i] =
        chunk_success_result (chunks.chunks.getD i defaultChunk)
          ((chain i).toOption.getD none) := by
      simp [okResults]
    exact ⟨hval, by rw [hval]; exact chunk_success_result_chunk_id _ _⟩

def chunkW1 : LogChunkR :=
  { id := "c1", content := ['a'], start_index := 0, end_index := 1, metadata := [] }

def chunkW2 : LogChunkR :=
  { id := "c2", content := ['b'], start_index := 1, end_index := 2, metadata := [] }

def chunksW : LogChunksR :=
  { chunks := [chunkW1, chunkW2], total_size := 2, original_log_size := 2 }

/-- A per-chunk operation whose chain legitimately returns nothing, always
succeeding. -/
def chainAllOk : Nat → ChainOutcome := fun _ => Except.ok none

/-- Completion in reverse order: the second launched task finishes first. -/
def indexedW : List (Nat × Except ExtractionError ChunkExtractionResult) :=
  (gather_results chunksW.chunks chainAllOk).reverse

/-- Witness for C1 at a concrete two-chunk batch completing in reverse order. -/
theorem extract_from_chunks_ordered_witness :
    ∃ results : List ChunkExtractionResult,
      extract_from_chunks chunksW indexedW = Except.ok results ∧
      results.length = chunksW.chunks.length ∧
      ∀ (i : Nat) (hi : i < results.length),
        results[i] = chunk_success_result (chunksW.chunks.getD i defaultChunk)
            ((chainAllOk i).toOption.getD none) ∧
        results[i].chunk_id = some (chunksW.chunks.getD i defaultChunk).id :=
  extract_from_chunks_ordered chunksW chainAllOk indexedW
    (List.reverse_perm _) (fun _ _ => rfl)

/-- Helper: the first components of a `filterMap` over `range n` that keeps
exactly the indices where `p` holds (tagging each kept index with itself) form
the filtered index list. -/
theorem map_fst_filterMap_range {β : Type} (F : Nat → Option (Nat × β)) (p : Nat → Bool)
    (n : Nat)
    (h : ∀ i, (p i = true → ∃ b, F i = some (i, b)) ∧ (p i = false → F i = none)) :
    ((List.range n).filterMap F).map Prod.fst = (List.range n).filter p := by
  induction n with
  | zero => rfl
  | succ n ih =>
      rw [List.range_succ, List.filterMap_append, List.filter_append, List.map_append, ih]
      cases hp : p n with
      | true =>
          obtain ⟨b, hb⟩ := (h n).1 hp
          simp [List.filterMap_cons, hb, List.filter_cons, hp]
      | false =>
          have hnone := (h n).2 hp
          simp [List.filterMap_cons, hnone, List.filter_cons, hp]

/-- C2: when at least one chunk fails, every chunk is still attempted exactly
once (the gathered outcomes tag each input index exactly once, independent of
the other outcomes), and the batch raises a single aggregate `ExtractionError`
whose details enumerate exactly one `(index, chunk_id, cause)` tuple per failed
chunk; no result list is returned, not even for the successful chunks. -/
theorem extract_from_chunks_aggregates_failures (chunks : LogChunksR)
    (chain : Nat → ChainOutcome)
    (indexed : List (Nat × Except ExtractionError ChunkExtractionResult))
    (hperm : indexed.Perm (gather_results chunks.chunks chain))
    (hfail : ∃ i, i < chunks.chunks.length ∧ (chain i).isOk = false) :
    (gather_results chunks.chunks chain).map Prod.fst =
      List.range chunks.chunks.length ∧
    (failTuples chunks.chunks chain).map Prod.fst =
      (List.range chunks.chunks.length).filter (fun i => !(chain i).isOk) ∧
    extract_from_chunks chunks indexed =
      Except.error
        { message := "提取过程中发生 " ++
            toString (failTuples chunks.chunks chain).length ++ " 个错误"
          details := some (ExcDetails.batchErrors (failTuples chunks.chunks chain)) } := by
  have hfst : (gather_results chunks.chunks chain).map Prod.fst =
      List.range chunks.chunks.length := by
    unfold gather_results
    rw [List.map_map]
    have h1 : (Prod.fst ∘ fun i =>
        (i, (extract_from_chunk (chunks.chunks.getD i defaultChunk) i
          chunks.chunks.length (chain i)).2)) = id := rfl
    rw [h1, List.map_id]
  have hidx : (failTuples chunks.chunks chain).map Prod.fst =
      (List.range chunks.chunks.length).filter (fun i => !(chain i).isOk) := by
    unfold failTuples
    apply map_fst_filterMap_range
    intro i
    cases hc : chain i with
    | ok out =>
        refine ⟨fun hp => ?_, fun _ => rfl⟩
        simp [hc, Except.isOk, Except.toBool] at hp
    | error e =>
        refine ⟨fun _ => ⟨_, rfl⟩, fun hp => ?_⟩
        simp [hc, Except.isOk, Except.toBool] at hp
  obtain ⟨j, hj, hjfail⟩ := hfail
  have hne : failTuples chunks.chunks chain ≠ [] := by
    intro h0
    have hjmem : j ∈ (List.range chunks.chunks.length).filter
        (fun i => !(chain i).isOk) := by
      rw [List.mem_filter]
      refine ⟨List.mem_range.mpr hj, ?_⟩
      rw [hjfail]
      rfl
    rw [← hidx, h0] at hjmem
    simp at hjmem
  have hEne : ¬(chunks.chunks.isEmpty = true) := by
    rw [List.isEmpty_iff]
    intro h0
    rw [h0] at hj
    exact absurd hj (by simp)
  refine ⟨hfst, hidx, ?_⟩
  simp only [extract_from_chunks]
  rw [if_neg hEne]
  rw [sortByIdx_eq_of_perm hperm (gather_results_sorted chunks.chunks chain)]
  unfold gather_results
  rw [List.filterMap_map, List.filterMap_map]
  have herr : (List.range chunks.chunks.length).filterMap
      ((fun p : Nat × Except ExtractionError ChunkExtractionResult =>
        match p.2 with
        | Except.error e =>
            some (p.1, (chunks.chunks.getD p.1 defaultChunk).id, errStr e)
        | Except.ok _ => none) ∘ fun i =>
          (i, (extract_from_chunk (chunks.chunks.getD i defaultChunk) i
            chunks.chunks.length (chain i)).2)) = failTuples chunks.chunks chain := by
    unfold failTuples
    apply filterMap_range_congr
    intro i _
    simp only [Function.comp]
    cases hc : chain i with
    | ok out => rfl
    | error e => rfl
  rw [herr]
  rw [if_neg (by rw [List.isEmpty_iff]; exact hne)]

/-- A per-chunk operation whose second launched call raises. -/
def chainOneFail : Nat → ChainOutcome :=
  fun i => if i = 1 then Except.error ("boom") else Except.ok none

/-- Completion in reverse order for the failing batch. -/
def indexedW2 : List (Nat × Except ExtractionError ChunkExtractionResult) :=
  (gather_results chunksW.chunks chainOneFail).reverse

/-- Witness for C2: a concrete two-chunk batch whose second chunk fails,
completing in reverse order. -/
theorem extract_from_chunks_aggregates_failures_witness :
    (gather_results chunksW.chunks chainOneFail).map Prod.fst =
      List.range chunksW.chunks.length ∧
    (failTuples chunksW.chunks chainOneFail).map Prod.fst =
      (List.range chunksW.chunks.length).filter (fun i => !(chainOneFail i).isOk) ∧
    extract_from_chunks chunksW indexedW2 =
      Except.error
        { message := "提取过程中发生 " ++
            toString (failTuples chunksW.chunks chainOneFail).length ++ " 个错误"
          details := some (ExcDetails.batchErrors (failTuples chunksW.chunks chainOneFail)) } :=
  extract_from_chunks_aggregates_failures chunksW chainOneFail indexedW2
    (List.reverse_perm _) ⟨1, by decide, rfl⟩

/-- Python `str.strip()` on ASCII content: whitespace dropped from both ends. -/
def pyStrip (s : List Char) : List Char :=
  ((s.dropWhile Char.isWhitespace).reverse.dropWhile Char.isWhitespace).reverse

/-- Smallest match position of `sub` in `s` at or after `st`: the search core of
Python `str.find(sub, st)` (an empty `sub` matches at any position up to
`s.length`, as in Python). -/
def findFrom (s sub : List Char) (st : Nat) : Option Nat :=
  (List.range (s.length + 1)).find? fun i =>
    decide (st ≤ i) && decide (i + sub.length ≤ s.length) &&
      decide ((s.drop i).take sub.length = sub)

/-- Python `str.find(sub, start)`: clamps a negative `start` the way Python
slicing does and returns -1 when there is no match. -/
def pyFind (s sub : List Char) (start : Int) : Int :=
  let st : Nat := if start < 0 then ((s.length : Int) + start).toNat else start.toNat
  match findFrom s sub st with
  | some i => (i : Int)
  | none => -1

/-- Python slice `s[a:b]` for the non-negative index uses verified here. -/
def listSlice (s : List Char) (a b : Int) : List Char :=
  (s.drop a.toNat).take (b - a).toNat

/-- utils/exceptions.py `ChunkingError(message, details)`; splitter.py raises it
with no `details` dict, so the structured payload is always empty. -/
structure ChunkingError where
  message : String
  details : List (String × Nat)
  deriving DecidableEq, Repr

/-- splitter.py `chunk_log` lines 87-109: the position-assignment loop over the
pieces returned by the splitter. `pos` is `current_position`, `i` the 0-based
piece index; each piece is located by `log_content.find(text, current_position)`
with fallback to the running cursor, and after the i-th chunk the cursor moves
to `end_index - chunk_overlap` when `i > 0`, else to `end_index`. The uuid
`id` field is abstracted to the empty string (no verified property reads it). -/
def chunk_log_loop (log : List Char) (overlap : Nat) (strategy : String)
    (base : List (String × MetaVal)) :
    List (List Char) → Int → Nat → List LogChunkR
  | [], _, _ => []
  | text :: rest, pos, i =>
      let f := pyFind log text pos
      let start : Int := if f = -1 then pos else f
      let endi : Int := start + text.length
      let chunk : LogChunkR :=
        { id := ""
          content := text
          start_index := start
          end_index := endi
          metadata := base ++
            [("chunk_number", MetaVal.nat (i + 1)),
             ("chunk_strategy", MetaVal.str strategy)] }
      chunk :: chunk_log_loop log overlap strategy base rest
        (if 0 < i then endi - overlap else endi) (i + 1)

/-- splitter.py `LogChunker.chunk_log` (lines 62-121): empty text yields an
empty chunk set before the try-block; any internal failure (modelled as the
split step raising, carried as an `Except.error` message) is wrapped into a
single `ChunkingError` with an empty details dict; otherwise the located chunks
are packaged with `total_size` and `original_log_size`. -/
def chunk_log (overlap : Nat) (strategy : String) (base : List (String × MetaVal))
    (log : List Char) (split_result : Except String (List (List Char))) :
    Except ChunkingError LogChunksR :=
  if log = [] then Except.ok { chunks := [], total_size := 0, original_log_size := 0 }
  else
    match split_result with
    | Except.error e =>
        Except.error { message := "日志分块失败: " ++ e, details := [] }
    | Except.ok texts =>
        let cs := chunk_log_loop log overlap strategy base texts 0 0
        Except.ok
          { chunks := cs
            total_size := (cs.map fun c => c.content.length).sum
            original_log_size := log.length }

instance exceptDecidableEq {ε α : Type} [DecidableEq ε] [DecidableEq α] :
    DecidableEq (Except ε α) := fun a b => by
  cases a with
  | ok x =>
      cases b with
      | ok y =>
          exact decidable_of_iff (x = y) ⟨fun h => by rw [h], fun h => by injection h⟩
      | error y => exact Decidable.isFalse fun h => Except.noConfusion h
  | error x =>
      cases b with
      | ok y => exact Decidable.isFalse fun h => Except.noConfusion h
      | error y =>
          exact decidable_of_iff (x = y) ⟨fun h => by rw [h], fun h => by injection h⟩

def logAB : List Char := ['a', 'b']

def textsBB : List (List Char) := [['b'], ['b']]

/-- The chunk set produced from `logAB` with pieces `textsBB`: the second piece
cannot be relocated (the forward search starts past its only occurrence), so it
gets the best-effort cursor position silently. -/
def bbChunkSet : LogChunksR :=
  { chunks :=
      [ { id := "", content := ['b'], start_index := 1, end_index := 2,
          metadata := [("chunk_number", MetaVal.nat 1),
                       ("chunk_strategy", MetaVal.str ("recursive"))] },
        { id := "", content := ['b'], start_index := 2, end_index := 3,
          metadata := [("chunk_number", MetaVal.nat 2),
                       ("chunk_strategy", MetaVal.str ("recursive"))] } ]
    total_size := 2
    original_log_size := 2 }

/-- C3 counterexample: the second chunk falls back to the sequential cursor
position (its content does not match the recorded slice of the original), yet
its metadata is exactly the standard `chunk_number`/`chunk_strategy` pair — the
same shape as the faithfully mapped first chunk — so the fallback is not
observable via metadata. -/
theorem chunk_fallback_metadata_counterexample :
    chunk_log 0 ("recursive") [] logAB (Except.ok textsBB) = Except.ok bbChunkSet ∧
    (bbChunkSet.chunks.getD 1 defaultChunk).content ≠
      listSlice logAB (bbChunkSet.chunks.getD 1 defaultChunk).start_index
        (bbChunkSet.chunks.getD 1 defaultChunk).end_index ∧
    (bbChunkSet.chunks.getD 1 defaultChunk).metadata =
      [("chunk_number", MetaVal.nat 2), ("chunk_strategy", MetaVal.str ("recursive"))] ∧
    (bbChunkSet.chunks.getD 0 defaultChunk).metadata =
      [("chunk_number", MetaVal.nat 1), ("chunk_strategy", MetaVal.str ("recursive"))] := by
  decide

/-- What a successful `findFrom` means: the match is at or after the requested
start, fits in the text, and the slice there equals the needle. -/
theorem findFrom_spec {s sub : List Char} {st i : Nat} (h : findFrom s sub st = some i) :
    st ≤ i ∧ i + sub.length ≤ s.length ∧ (s.drop i).take sub.length = sub := by
  have hp := List.find?_some h
  simp only [Bool.and_eq_true, decide_eq_true_eq] at hp
  exact ⟨hp.1.1, hp.1.2, hp.2⟩

/-- Invariant of the position-assignment loop: every emitted chunk records
`end_index = start_index + len(content)` and the standard metadata shape (base
plus `chunk_number`/`chunk_strategy`, never a fallback marker); when the forward
search succeeded the position is a faithful, in-bounds slice, otherwise the
chunk carries some cursor position `p` from which the search failed. -/
theorem chunk_log_loop_invariant (log : List Char) (overlap : Nat) (strategy : String)
    (base : List (String × MetaVal)) :
    ∀ (texts : List (List Char)) (pos : Int) (i : Nat),
      (∀ t ∈ texts, t ≠ []) →
      ∀ c ∈ chunk_log_loop log overlap strategy base texts pos i,
        c.end_index = c.start_index + c.content.length ∧
        (∃ j : Nat, c.metadata = base ++
          [("chunk_number", MetaVal.nat (j + 1)),
           ("chunk_strategy", MetaVal.str strategy)]) ∧
        ((0 ≤ c.start_index ∧ c.start_index < c.end_index ∧
            c.content = listSlice log c.start_index c.end_index) ∨
          (∃ p : Int, pyFind log c.content p = -1 ∧ c.start_index = p)) := by
  intro texts
  induction texts with
  | nil =>
      intro pos i _ c hc
      simp [chunk_log_loop] at hc
  | cons t rest ih =>
      intro pos i hne c hc
      simp only [chunk_log_loop] at hc
      rcases List.mem_cons.mp hc with hceq | hcrest
      · subst hceq
        refine ⟨rfl, ⟨i, rfl⟩, ?_⟩
        by_cases hf : pyFind log t pos = -1
        · refine Or.inr ⟨pos, hf, ?_⟩
          show (if pyFind log t pos = -1 then pos else pyFind log t pos) = pos
          rw [if_pos hf]
        · cases hfind : findFrom log t
              (if pos < 0 then ((log.length : Int) + pos).toNat else pos.toNat) with
          | none =>
              exfalso
              apply hf
              show pyFind log t pos = -1
              simp only [pyFind]
              rw [hfind]
          | some i0 =>
              have hpf : pyFind log t pos = (i0 : Int) := by
                simp only [pyFind]
                rw [hfind]
              obtain ⟨_, hfit, hslice⟩ := findFrom_spec hfind
              have hlen : 0 < t.length :=
                List.length_pos.mpr (hne t (List.mem_cons_self t rest))
              have hstart : (if pyFind log t pos = -1 then pos else pyFind log t pos) =
                  (i0 : Int) := by
                rw [if_neg hf, hpf]
              refine Or.inl ⟨?_, ?_, ?_⟩
              · show 0 ≤ (if pyFind log t pos = -1 then pos else pyFind log t pos)
                rw [hstart]
                exact Int.natCast_nonneg i0
              · show (if pyFind log t pos = -1 then pos else pyFind log t pos) <
                  (if pyFind log t pos = -1 then pos else pyFind log t pos) + (t.length : Int)
                omega
              · show t = listSlice log
                  (if pyFind log t pos = -1 then pos else pyFind log t pos)
                  ((if pyFind log t pos = -1 then pos else pyFind log t pos) + (t.length : Int))
                rw [hstart]
                unfold listSlice
                have e1 : ((i0 : Int) + (t.length : Int) - (i0 : Int)).toNat = t.length := by
                  omega
                have e2 : ((i0 : Int)).toNat = i0 := by omega
                rw [e1, e2, hslice]
      · exact ih _ (i + 1) (fun u hu => hne u (List.mem_cons_of_mem t hu)) c hcrest

/-- C3 amended: every chunk emitted by `chunk_log` (non-empty pieces) satisfies
`end_index = start_index + len(content)`; whenever the forward search relocated
the piece, `0 ≤ start_index < end_index` and `content` equals the recorded slice
of the original; when the search failed, the chunk silently takes a best-effort
cursor position, and every chunk's metadata is exactly the base metadata plus
`chunk_number` and `chunk_strategy` — the fallback is never recorded there. -/
theorem chunk_position_invariant (log : List Char) (overlap : Nat) (strategy : String)
    (base : List (String × MetaVal)) (texts : List (List Char)) (cs : LogChunksR)
    (hok : chunk_log overlap strategy base log (Except.ok texts) = Except.ok cs)
    (hne : ∀ t ∈ texts, t ≠ []) :
    ∀ c ∈ cs.chunks,
      c.end_index = c.start_index + c.content.length ∧
      (∃ j : Nat, c.metadata = base ++
        [("chunk_number", MetaVal.nat (j + 1)),
         ("chunk_strategy", MetaVal.str strategy)]) ∧
      ((0 ≤ c.start_index ∧ c.start_index < c.end_index ∧
          c.content = listSlice log c.start_index c.end_index) ∨
        (∃ p : Int, pyFind log c.content p = -1 ∧ c.start_index = p)) := by
  by_cases h0 : log = []
  · unfold chunk_log at hok
    rw [if_pos h0] at hok
    injection hok with hok
    rw [← hok]
    intro c hc
    simp at hc
  · unfold chunk_log at hok
    rw [if_neg h0] at hok
    injection hok with hok
    rw [← hok]
    exact chunk_log_loop_invariant log overlap strategy base texts 0 0 hne

/-- Witness for the amended C3 at the concrete fallback-producing input. -/
theorem chunk_position_invariant_witness :
    (∀ t ∈ textsBB, t ≠ []) ∧
    ∀ c ∈ bbChunkSet.chunks,
      c.end_index = c.start_index + c.content.length ∧
      (∃ j : Nat, c.metadata = [] ++
        [("chunk_number", MetaVal.nat (j + 1)),
         ("chunk_strategy", MetaVal.str ("recursive"))]) ∧
      ((0 ≤ c.start_index ∧ c.start_index < c.end_index ∧
          c.content = listSlice logAB c.start_index c.end_index) ∨
        (∃ p : Int, pyFind logAB c.content p = -1 ∧ c.start_index = p)) :=
  ⟨by decide,
    chunk_position_invariant logAB 0 ("recursive") [] textsBB bbChunkSet
      (by decide) (by decide)⟩

def logABC : List Char := ['a', 'b', 'c']

def logABCDE : List Char := ['a', 'b', 'c', 'd', 'e']

/-- C9 counterexample: the `ChunkingError` raised on an internal failure does
not carry the original text's length anywhere — two texts of different lengths
produce the identical error value, whose structured details are empty; only the
failure cause appears (inside the message). -/
theorem chunking_error_counterexample :
    chunk_log 0 ("recursive") [] logABC (Except.error ("boom")) =
      Except.error { message := "日志分块失败: boom", details := [] } ∧
    chunk_log 0 ("recursive") [] logABCDE (Except.error ("boom")) =
      Except.error { message := "日志分块失败: boom", details := [] } ∧
    logABC.length ≠ logABCDE.length := by
  decide

/-- C9 amended: any internal splitting failure on non-empty text is wrapped
into a single `ChunkingError` whose message carries the failure cause; the
structured details are empty (the original text length is not included), and no
chunk set — partial or otherwise — is returned. -/
theorem chunking_error_wraps_cause (overlap : Nat) (strategy : String)
    (base : List (String × MetaVal)) (log : List Char) (e : String)
    (h : log ≠ []) :
    chunk_log overlap strategy base log (Except.error e) =
      Except.error { message := "日志分块失败: " ++ e, details := [] } := by
  unfold chunk_log
  rw [if_neg h]

/-- Witness for the amended C9 at a concrete failing split. -/
theorem chunking_error_wraps_cause_witness :
    chunk_log 0 ("recursive") [] logABC (Except.error ("boom")) =
      Except.error { message := "日志分块失败: " ++ "boom", details := [] } :=
  chunking_error_wraps_cause 0 ("recursive") [] logABC ("boom") (by decide)

/-- C4 counterexample: for the first chunk (index 0) of a batch of 2, the
"processing" event emitted before extraction carries percentage 0, not
(0+1)/2*100 = 50 — the code computes chunk_index/total_chunks*100 for the
"processing" event. -/
theorem processing_percentage_counterexample :
    ((extract_from_chunk chunkW1 0 2 (Except.ok none)).1.head?.map
      fun ev => (ev.status, ev.progress_percentage)) = some ("processing", 0) ∧
    (0 : ℚ) ≠ ((0 : ℚ) + 1) / 2 * 100 := by
  constructor
  · norm_num [extract_from_chunk]
  · norm_num

/-- C4 amended: the "processing" event emitted before the i-th chunk's
extraction carries percentage index/total*100; the (index+1)/total*100 formula
is used only by the subsequent "completed"/"failed" event of that chunk. -/
theorem processing_percentage_formula (chunk : LogChunkR) (i n : Nat)
    (r : ChainOutcome) (h : 0 < n) :
    (extract_from_chunk chunk i n r).1.head? =
      some { step := "extraction", chunk_id := chunk.id, chunk_index := i + 1,
             total_chunks := n, progress_percentage := (i : ℚ) / (n : ℚ) * 100,
             status := "processing" } ∧
    (extract_from_chunk chunk i n r).1.map ProgressEvent.progress_percentage =
      [(i : ℚ) / (n : ℚ) * 100, ((i : ℚ) + 1) / (n : ℚ) * 100] := by
  cases r with
  | ok out => exact ⟨by simp [extract_from_chunk, h], by simp [extract_from_chunk, h]⟩
  | error e => exact ⟨by simp [extract_from_chunk, h], by simp [extract_from_chunk, h]⟩

/-- Witness for the amended C4 at index 0 of a batch of 2. -/
theorem processing_percentage_formula_witness :
    (extract_from_chunk chunkW1 0 2 (Except.ok none)).1.head? =
      some { step := "extraction", chunk_id := chunkW1.id, chunk_index := 0 + 1,
             total_chunks := 2, progress_percentage := (0 : ℚ) / (2 : ℚ) * 100,
             status := "processing" } ∧
    (extract_from_chunk chunkW1 0 2 (Except.ok none)).1.map
        ProgressEvent.progress_percentage =
      [(0 : ℚ) / (2 : ℚ) * 100, ((0 : ℚ) + 1) / (2 : ℚ) * 100] :=
  processing_percentage_formula chunkW1 0 2 (Except.ok none) (by norm_num)

/-- rate_limiter.py `TokenBucket` state: refill `rate` per 60 time units,
capacity `burst`, current (fractional) token count and the last-refill
timestamp; Python float arithmetic is modelled over ℚ. -/
structure TokenBucket where
  rate : ℚ
  burst : ℚ
  tokens : ℚ
  last_update : ℚ
  deriving DecidableEq, Repr

/-- `TokenBucket(rate, burst)` constructed at time `now`: starts full. -/
def TokenBucket.init (rate burst now : ℚ) : TokenBucket :=
  { rate := rate, burst := burst, tokens := burst, last_update := now }

/-- rate_limiter.py `TokenBucket.acquire` (lines 42-65): continuous refill
`(elapsed / 60) * rate` capped at `burst`, timestamp updated, then the requested
tokens are deducted when available; otherwise only the refill bookkeeping
changes and the call reports failure. -/
def TokenBucket.acquire (b : TokenBucket) (now : ℚ) (tokens : ℚ) : Bool × TokenBucket :=
  let elapsed := now - b.last_update
  let refill_amount := elapsed / 60 * b.rate
  let t := min b.burst (b.tokens + refill_amount)
  if tokens ≤ t then
    (true, { b with tokens := t - tokens, last_update := now })
  else
    (false, { b with tokens := t, last_update := now })

/-- A run of `acquire(1)` calls against the same bucket at a fixed instant,
returning the outcomes in call order. -/
def TokenBucket.acquireRun : TokenBucket → ℚ → Nat → List Bool × TokenBucket
  | b, _, 0 => ([], b)
  | b, now, Nat.succ k =>
      let r := b.acquire now 1
      let rest := TokenBucket.acquireRun r.2 now k
      (r.1 :: rest.1, rest.2)

/-- With no elapsed time the refill is zero, so `acquire` is a pure
check-and-deduct against the current token count. -/
theorem TokenBucket.acquire_same_time (b : TokenBucket) (n : ℚ)
    (h : b.tokens ≤ b.burst) :
    b.acquire b.last_update n =
      if n ≤ b.tokens then
        (true, { b with tokens := b.tokens - n })
      else
        (false, b) := by
  unfold TokenBucket.acquire
  simp only [sub_self, zero_div, zero_mul, add_zero, min_eq_right h]

/-- A bucket holding exactly `k` whole tokens (within capacity) admits exactly
`k` single-token calls at one instant before denying. -/
theorem acquireRun_exhausts :
    ∀ (k : Nat) (b : TokenBucket), b.tokens = (k : ℚ) → (k : ℚ) ≤ b.burst →
      (TokenBucket.acquireRun b b.last_update (k + 1)).1 =
        List.replicate k true ++ [false] := by
  intro k
  induction k with
  | zero =>
      intro b htok hble
      have hfail : ¬((1 : ℚ) ≤ b.tokens) := by rw [htok]; norm_num
      show ((b.acquire b.last_update 1).1 ::
        (TokenBucket.acquireRun (b.acquire b.last_update 1).2 b.last_update 0).1, _).1 =
          List.replicate 0 true ++ [false]
      rw [TokenBucket.acquire_same_time b 1 (htok ▸ hble)]
      rw [if_neg hfail]
      rfl
  | succ k ih =>
      intro b htok hble
      have hok : (1 : ℚ) ≤ b.tokens := by
        rw [htok]
        push_cast
        linarith [Nat.cast_nonneg (α := ℚ) k]
      have hstep := TokenBucket.acquire_same_time b 1 (htok ▸ hble)
      rw [if_pos hok] at hstep
      show ((b.acquire b.last_update 1).1 ::
        (TokenBucket.acquireRun (b.acquire b.last_update 1).2 b.last_update (k + 1)).1, _).1 =
          List.replicate (k + 1) true ++ [false]
      rw [hstep]
      have hb' : ({ b with tokens := b.tokens - 1 } : TokenBucket).tokens = (k : ℚ) := by
        show b.tokens - 1 = (k : ℚ)
        rw [htok]
        push_cast
        ring
      have hble' : (k : ℚ) ≤ ({ b with tokens := b.tokens - 1 } : TokenBucket).burst := by
        show (k : ℚ) ≤ b.burst
        refine le_trans ?_ hble
        push_cast
        linarith
      have := ih { b with tokens := b.tokens - 1 } hb' hble'
      rw [List.replicate_succ, List.cons_append]
      rw [show ({ b with tokens := b.tokens - 1 } : TokenBucket).last_update =
        b.last_update from rfl] at this
      rw [this]

/-- C6: for a bucket with capacity `burst_size = B` refilling `rpm_limit` per 60
time units: starting full, the first B `acquire(1)` calls succeed and the
(B+1)-th fails with no elapsed time; `acquire(n)` deducts exactly when, after
the capped continuous refill, at least `n` tokens are available, and otherwise
only updates the refill bookkeeping and returns false; and once at least
`60 / rpm_limit` time units have elapsed a further `acquire(1)` succeeds. -/
theorem token_bucket_spec :
    (∀ (rate : ℚ) (B : Nat) (t0 : ℚ),
      (TokenBucket.acquireRun (TokenBucket.init rate (B : ℚ) t0) t0 (B + 1)).1 =
        List.replicate B true ++ [false]) ∧
    (∀ (b : TokenBucket) (now n : ℚ),
      (n ≤ min b.burst (b.tokens + (now - b.last_update) / 60 * b.rate) →
        b.acquire now n = (true,
          { b with
              tokens := min b.burst (b.tokens + (now - b.last_update) / 60 * b.rate) - n,
              last_update := now })) ∧
      (¬n ≤ min b.burst (b.tokens + (now - b.last_update) / 60 * b.rate) →
        b.acquire now n = (false,
          { b with
              tokens := min b.burst (b.tokens + (now - b.last_update) / 60 * b.rate),
              last_update := now }))) ∧
    (∀ (b : TokenBucket) (now : ℚ), 0 < b.rate → 1 ≤ b.burst → 0 ≤ b.tokens →
      60 / b.rate ≤ now - b.last_update → (b.acquire now 1).1 = true) := by
  refine ⟨?_, ?_, ?_⟩
  · intro rate B t0
    exact acquireRun_exhausts B (TokenBucket.init rate (B : ℚ) t0) rfl le_rfl
  · intro b now n
    constructor
    · intro h
      unfold TokenBucket.acquire
      rw [if_pos h]
    · intro h
      unfold TokenBucket.acquire
      rw [if_neg h]
  · intro b now hrate hburst htok helapsed
    have h3 : 60 / b.rate / 60 ≤ (now - b.last_update) / 60 :=
      (div_le_div_right (by norm_num)).mpr helapsed
    have h4 : 60 / b.rate / 60 * b.rate ≤ (now - b.last_update) / 60 * b.rate :=
      mul_le_mul_of_nonneg_right h3 hrate.le
    have h2 : 60 / b.rate / 60 * b.rate = 1 := by
      field_simp
      ring
    have key : (1 : ℚ) ≤ b.tokens + (now - b.last_update) / 60 * b.rate := by
      rw [h2] at h4
      linarith
    have h1 : (1 : ℚ) ≤ min b.burst (b.tokens + (now - b.last_update) / 60 * b.rate) :=
      le_min hburst key
    unfold TokenBucket.acquire
    rw [if_pos h1]

/-- Witness for C6: a drained bucket (rate 60, burst 10) admits again after one
time unit, and a burst-2 bucket admits twice then denies at one instant. -/
theorem token_bucket_spec_witness :
    (TokenBucket.acquireRun (TokenBucket.init 60 ((2 : Nat) : ℚ) 0) 0 (2 + 1)).1 =
      List.replicate 2 true ++ [false] ∧
    (({ rate := 60, burst := 10, tokens := 0, last_update := 0 } : TokenBucket).acquire
        1 1).1 = true :=
  ⟨token_bucket_spec.1 60 2 0,
    token_bucket_spec.2.2 { rate := 60, burst := 10, tokens := 0, last_update := 0 } 1
      (by norm_num) (by norm_num) (by norm_num) (by norm_num)⟩

/-- rate_limiter.py `SlidingWindow` state: the time-ordered queue of admission
timestamps. -/
structure SlidingWindow where
  limit : Nat
  window : ℚ
  requests : List ℚ
  deriving DecidableEq, Repr

/-- rate_limiter.py `SlidingWindow.acquire` (lines 97-115): evict timestamps
with `t <= now - window` from the front, then admit (append `now`) only when
the queue is below `limit`. -/
def SlidingWindow.acquire (w : SlidingWindow) (now : ℚ) : Bool × SlidingWindow :=
  let reqs := w.requests.dropWhile fun t => decide (t ≤ now - w.window)
  if reqs.length < w.limit then
    (true, { w with requests := reqs ++ [now] })
  else
    (false, { w with requests := reqs })

/-- rate_limiter.py `RateLimitConfig`. -/
structure RateLimitConfig where
  tpm_limit : Option Nat := none
  rpm_limit : Option Nat := none
  burst_size : Nat := 10
  enabled : Bool := true
  deriving DecidableEq, Repr

/-- rate_limiter.py `RateLimiter`: the composite limiter holding zero, one or
two sub-limiters. -/
structure RateLimiter where
  config : RateLimitConfig
  rpm_limiter : Option TokenBucket
  tpm_limiter : Option SlidingWindow
  deriving DecidableEq, Repr

/-- rate_limiter.py `RateLimiter.__init__` (lines 134-160) at creation time
`now`: a sub-limiter is created only when globally enabled and the
corresponding limit is truthy (Python treats both `None` and `0` as falsy). -/
def RateLimiter.init (config : RateLimitConfig) (now : ℚ) : RateLimiter :=
  { config := config
    rpm_limiter :=
      if config.enabled then
        match config.rpm_limit with
        | some r =>
            if r ≠ 0 then some (TokenBucket.init (r : ℚ) (config.burst_size : ℚ) now)
            else none
        | none => none
      else none
    tpm_limiter :=
      if config.enabled then
        match config.tpm_limit with
        | some l =>
            if l ≠ 0 then some { limit := l, window := 60, requests := [] }
            else none
        | none => none
      else none }

/-- The TPM check half of `RateLimiter.acquire` (rate_limiter.py lines 179-184):
consult the sliding window when configured; its state update is kept either way. -/
def RateLimiter.acquireTpm (s : RateLimiter) (now : ℚ) : Bool × RateLimiter :=
  match s.tpm_limiter with
  | some w =>
      let r := w.acquire now
      (r.1, { s with tpm_limiter := some r.2 })
  | none => (true, s)

/-- rate_limiter.py `RateLimiter.acquire` (lines 162-184): disabled means
unconditional success with untouched state; otherwise the token bucket is
consulted first (its refill bookkeeping and any deduction are kept even if the
overall result is denial), and only if it admits is the sliding window
consulted. -/
def RateLimiter.acquire (s : RateLimiter) (now : ℚ) (tokens : ℚ) : Bool × RateLimiter :=
  if s.config.enabled = false then (true, s)
  else
    match s.rpm_limiter with
    | some b =>
        let r := b.acquire now tokens
        let s' := { s with rpm_limiter := some r.2 }
        if r.1 then RateLimiter.acquireTpm s' now else (false, s')
    | none => RateLimiter.acquireTpm s now

/-- rate_limiter.py `TokenBucket.wait_for_token` (lines 67-76), modelled with
explicit retry instants and fuel (the sleep-duration formula only schedules the
retries, which the `times` list abstracts). -/
def TokenBucket.waitForToken : Nat → TokenBucket → List ℚ → ℚ → Option TokenBucket
  | 0, _, _, _ => none
  | _ + 1, _, [], _ => none
  | fuel + 1, b, now :: rest, tokens =>
      let r := b.acquire now tokens
      if r.1 then some r.2 else TokenBucket.waitForToken fuel r.2 rest tokens

/-- rate_limiter.py `SlidingWindow.wait_for_slot` (lines 117-125), modelled with
explicit retry instants and fuel. -/
def SlidingWindow.waitForSlot : Nat → SlidingWindow → List ℚ → Option SlidingWindow
  | 0, _, _ => none
  | _ + 1, _, [] => none
  | fuel + 1, w, now :: rest =>
      let r := w.acquire now
      if r.1 then some r.2 else SlidingWindow.waitForSlot fuel r.2 rest

/-- rate_limiter.py `RateLimiter.wait_for_permission` (lines 186-205): disabled
returns immediately with untouched state; otherwise each configured sub-limiter
is waited on concurrently and independently (modelled by separate retry
schedules), the call finishing when both have admitted. -/
def RateLimiter.wait_for_permission (s : RateLimiter) (tokens : ℚ)
    (rpmTimes tpmTimes : List ℚ) (fuel : Nat) : Option RateLimiter :=
  if s.config.enabled = false then some s
  else
    let rpmRes : Option (Option TokenBucket) :=
      match s.rpm_limiter with
      | some b => (TokenBucket.waitForToken fuel b rpmTimes tokens).map some
      | none => some none
    let tpmRes : Option (Option SlidingWindow) :=
      match s.tpm_limiter with
      | some w => (SlidingWindow.waitForSlot fuel w tpmTimes).map some
      | none => some none
    match rpmRes, tpmRes with
    | some rb, some tw => some { s with rpm_limiter := rb, tpm_limiter := tw }
    | _, _ => none

/-- The TPM half of the composite acquire admits exactly when the configured
sliding window (if any) admits. -/
theorem acquireTpm_fst (s : RateLimiter) (now : ℚ) :
    (RateLimiter.acquireTpm s now).1 = true ↔
      (∀ w, s.tpm_limiter = some w → (w.acquire now).1 = true) := by
  cases htpm : s.tpm_limiter with
  | none => simp [RateLimiter.acquireTpm, htpm]
  | some w => simp [RateLimiter.acquireTpm, htpm]

/-- C7: the composite `acquire` admits exactly when every configured
sub-limiter admits; when the bucket admits but the window denies, the overall
result is denial and the returned state keeps the bucket deduction (no
compensating release); when rate limiting is disabled, both `acquire` and
`wait_for_permission` are no-op successes leaving the state untouched. -/
theorem rate_limiter_acquire_spec :
    (∀ (s : RateLimiter) (now tokens : ℚ), s.config.enabled = true →
      ((s.acquire now tokens).1 = true ↔
        (∀ b, s.rpm_limiter = some b → (b.acquire now tokens).1 = true) ∧
        (∀ w, s.tpm_limiter = some w → (w.acquire now).1 = true))) ∧
    (∀ (s : RateLimiter) (now tokens : ℚ) (b : TokenBucket) (w : SlidingWindow),
      s.config.enabled = true → s.rpm_limiter = some b → s.tpm_limiter = some w →
      (b.acquire now tokens).1 = true → (w.acquire now).1 = false →
      s.acquire now tokens = (false,
        { s with
            rpm_limiter := some (b.acquire now tokens).2,
            tpm_limiter := some (w.acquire now).2 })) ∧
    (∀ (s : RateLimiter) (now tokens : ℚ) (rpmTimes tpmTimes : List ℚ) (fuel : Nat),
      s.config.enabled = false →
      s.acquire now tokens = (true, s) ∧
      s.wait_for_permission tokens rpmTimes tpmTimes fuel = some s) := by
  refine ⟨?_, ?_, ?_⟩
  · intro s now tokens hen
    unfold RateLimiter.acquire
    rw [if_neg (by simp [hen])]
    cases hrpm : s.rpm_limiter with
    | none =>
        have h := acquireTpm_fst s now
        simp only [hrpm]
        constructor
        · intro ht
          exact ⟨fun b hb => Option.noConfusion hb, h.mp ht⟩
        · intro ⟨_, hw⟩
          exact h.mpr hw
    | some b =>
        cases hb1 : (b.acquire now tokens).1 with
        | false =>
            simp only [hb1, if_false]
            constructor
            · intro ht
              cases ht
            · intro ⟨hb, _⟩
              have := hb b rfl
              rw [hb1] at this
              cases this
        | true =>
            simp only [hb1, if_true]
            have h := acquireTpm_fst { s with rpm_limiter := some (b.acquire now tokens).2 } now
            constructor
            · intro ht
              refine ⟨?_, h.mp ht⟩
              intro b' hb'
              injection hb' with hb'
              rw [← hb']
              exact hb1
            · intro ⟨_, hw⟩
              exact h.mpr hw
  · intro s now tokens b w hen hrpm htpm hb1 hw1
    unfold RateLimiter.acquire
    rw [if_neg (by simp [hen])]
    simp only [hrpm, hb1, if_true]
    unfold RateLimiter.acquireTpm
    simp only [htpm, hw1]
  · intro s now tokens rpmTimes tpmTimes fuel hdis
    constructor
    · unfold RateLimiter.acquire
      rw [if_pos (by simp [hdis])]
    · unfold RateLimiter.wait_for_permission
      rw [if_pos (by simp [hdis])]

/-- An enabled limiter whose bucket is full but whose one-slot window already
holds an unexpired admission. -/
def rlW : RateLimiter :=
  { config := { tpm_limit := some 1, rpm_limit := some 60, burst_size := 10,
                enabled := true }
    rpm_limiter := some { rate := 60, burst := 10, tokens := 10, last_update := 1 }
    tpm_limiter := some { limit := 1, window := 60, requests := [(1 : ℚ) / 2] } }

/-- A globally disabled limiter. -/
def rlDisabled : RateLimiter :=
  { config := { enabled := false }, rpm_limiter := none, tpm_limiter := none }

/-- Witness for C7: concretely, the bucket admits (and stays deducted) while
the window denies, giving overall denial; and the disabled limiter is a no-op. -/
theorem rate_limiter_acquire_spec_witness :
    rlW.acquire 1 1 = (false,
      { rlW with
          rpm_limiter := some
            (({ rate := 60, burst := 10, tokens := 10, last_update := 1 } :
              TokenBucket).acquire 1 1).2,
          tpm_limiter := some
            (({ limit := 1, window := 60, requests := [(1 : ℚ) / 2] } :
              SlidingWindow).acquire 1).2 }) ∧
    rlDisabled.acquire 2 1 = (true, rlDisabled) ∧
    rlDisabled.wait_for_permission 1 [] [] 3 = some rlDisabled :=
  ⟨rate_limiter_acquire_spec.2.1 rlW 1 1 _ _ rfl rfl rfl
      (by norm_num [TokenBucket.acquire])
      (by norm_num [SlidingWindow.acquire, List.dropWhile]),
    (rate_limiter_acquire_spec.2.2 rlDisabled 2 1 [] [] 3 rfl).1,
    (rate_limiter_acquire_spec.2.2 rlDisabled 2 1 [] [] 3 rfl).2⟩

/-- langchain `_join_docs` for separator "\n": join, strip whitespace
(`strip_whitespace` defaults to true), drop if empty. -/
def joinDocs (docs : List (List Char)) : Option (List Char) :=
  let text := pyStrip (List.intercalate ['\n'] docs)
  if text = [] then none else some text

/-- The inner while-loop of langchain `_merge_splits` (separator length 1): pop
leading splits while the running total exceeds the overlap, or while the next
split would still overflow `chunk_size`. In every reachable state `total` is
the separator-weighted length of `current`, so once `current` is empty both
loop conditions are false and the loop stops; the empty case returns directly. -/
def shrinkLoop (cs co lenNext : Nat) : List (List Char) → Nat → List (List Char) × Nat
  | [], total => ([], total)
  | c :: cur, total =>
      if co < total ∨ (cs < total + lenNext + 1 ∧ 0 < total) then
        shrinkLoop cs co lenNext cur (total - (c.length + if cur = [] then 0 else 1))
      else (c :: cur, total)

/-- langchain `_merge_splits` for separator "\n": accumulate small splits into
`current`, and whenever the next split would overflow `chunk_size`, emit the
joined document and trim `current` down to the overlap before continuing;
arguments are (remaining splits, emitted docs, current run, running total). -/
def mergeLoop (cs co : Nat) :
    List (List Char) → List (List Char) → List (List Char) → Nat → List (List Char)
  | [], docs, current, _ =>
      docs ++ (joinDocs current).toList
  | d :: rest, docs, current, total =>
      let sep : Nat := if current = [] then 0 else 1
      if cs < total + d.length + sep then
        let docs' := docs ++ (joinDocs current).toList
        let sc := shrinkLoop cs co d.length current total
        mergeLoop cs co rest docs' (sc.1 ++ [d])
          (sc.2 + d.length + if sc.1 = [] then 0 else 1)
      else
        mergeLoop cs co rest docs (current ++ [d]) (total + d.length + sep)

/-- The split-dispatch loop of langchain `_split_text` specialised to the
line-based configuration (`separators=["\n"]`, `keep_separator=False`): runs of
lines shorter than `chunk_size` are merged; an oversized line is emitted as-is
(there is no finer separator to recurse into). -/
def processLoop (cs co : Nat) : List (List Char) → List (List Char) → List (List Char)
  | [], good => if good = [] then [] else mergeLoop cs co good [] [] 0
  | s :: rest, good =>
      if s.length < cs then processLoop cs co rest (good ++ [s])
      else
        (if good = [] then [] else mergeLoop cs co good [] [] 0) ++
          s :: processLoop cs co rest []

/-- langchain `RecursiveCharacterTextSplitter.split_text` as configured by
splitter.py for the line-based strategy: split on newlines, drop empty pieces
(as `_split_text_with_regex` does), then merge. -/
def splitTextLineBased (cs co : Nat) (text : List Char) : List (List Char) :=
  processLoop cs co ((text.splitOn '\n').filter fun s => decide (s ≠ [])) []

/-- splitter.py `LogChunker(chunk_size, chunk_overlap, LINE_BASED).chunk_log`
end to end. -/
def chunk_log_line_based (cs co : Nat) (base : List (String × MetaVal))
    (log : List Char) : Except ChunkingError LogChunksR :=
  chunk_log co ("line_based") base log (Except.ok (splitTextLineBased cs co log))

/-- Spec §8 coverage reconstruction: concatenate the chunks' contents with the
portion overlapping the previous chunk (by recorded positions) removed. -/
def dropOverlaps : List LogChunkR → Int → List Char
  | [], _ => []
  | c :: rest, prevEnd =>
      c.content.drop (prevEnd - c.start_index).toNat ++ dropOverlaps rest c.end_index

/-- Reconstruction of the original text from a chunk list, starting at offset 0. -/
def reconstruct (chunks : List LogChunkR) : List Char := dropOverlaps chunks 0

def logANB : List Char := ['a', '\n', 'b']

/-- The chunk set the line-based chunker produces for "a\nb" with
`chunk_size = 1`: one chunk per line, the separating newline in neither. -/
def anbChunkSet : LogChunksR :=
  { chunks :=
      [ { id := "", content := ['a'], start_index := 0, end_index := 1,
          metadata := [("chunk_number", MetaVal.nat 1),
                       ("chunk_strategy", MetaVal.str ("line_based"))] },
        { id := "", content := ['b'], start_index := 2, end_index := 3,
          metadata := [("chunk_number", MetaVal.nat 2),
                       ("chunk_strategy", MetaVal.str ("line_based"))] } ]
    total_size := 2
    original_log_size := 3 }

/-- C8 counterexample: for "a\nb" with `chunk_size = 1`, `chunk_overlap = 0`,
the line-based chunker emits the chunks "a" and "b"; concatenating the
non-overlapping portions yields "ab" — the newline at the chunk boundary is
dropped, so the original text is not reconstructed. -/
theorem line_based_coverage_counterexample :
    chunk_log_line_based 1 0 [] logANB = Except.ok anbChunkSet ∧
    reconstruct anbChunkSet.chunks = ['a', 'b'] ∧
    reconstruct anbChunkSet.chunks ≠ logANB := by
  decide

/-- Separator-weighted length of a run of splits: the length of their
newline-join. -/
def wlen : List (List Char) → Nat
  | [] => 0
  | x :: xs => x.length + (xs.map fun y => y.length + 1).sum

/-- Appending one split adds its length plus one separator (when the run was
non-empty). -/
theorem wlen_append_singleton (l : List (List Char)) (d : List Char) :
    wlen (l ++ [d]) = if l = [] then d.length else wlen l + d.length + 1 := by
  cases l with
  | nil => simp [wlen]
  | cons x xs =>
      simp only [List.cons_append, wlen, List.map_append, List.sum_append,
        List.map_cons, List.sum_cons, List.map_nil, List.sum_nil,
        List.cons_ne_nil, if_false]
      omega

/-- Weighted length is monotone under extending the run. -/
theorem wlen_le_of_extend (l : List (List Char)) (d : List Char)
    (rest : List (List Char)) :
    wlen (l ++ [d]) ≤ wlen (l ++ d :: rest) := by
  cases l with
  | nil =>
      simp only [List.nil_append, wlen, List.map_nil, List.sum_nil]
      have : ((rest.map fun y => y.length + 1).sum : Nat) ≥ 0 := Nat.zero_le _
      omega
  | cons x xs =>
      simp only [List.cons_append, wlen, List.map_append, List.sum_append,
        List.map_cons, List.sum_cons, List.map_nil, List.sum_nil]
      omega

/-- The weighted length of a run is the length of its newline-join. -/
theorem wlen_eq_intercalate_length (l : List (List Char)) :
    wlen l = (List.intercalate ['\n'] l).length := by
  induction l with
  | nil => rfl
  | cons x xs ih =>
      cases xs with
      | nil => simp [wlen, List.intercalate]
      | cons y t =>
          rw [wlen]
          unfold List.intercalate at ih ⊢
          rw [List.intersperse_cons_cons, List.join_cons, List.join_cons,
            List.length_append, List.length_append]
          rw [show (List.intersperse ['\n'] (y :: t)).join.length = wlen (y :: t) from
            (by rw [ih])]
          simp only [wlen, List.map_cons, List.sum_cons, List.length_cons,
            List.length_nil]
          omega

/-- When every extension of the current run still fits in `chunk_size`, the
merge loop never triggers and emits a single joined document. -/
theorem mergeLoop_no_trigger (cs co : Nat) :
    ∀ (rem current : List (List Char)) (total : Nat),
      total = wlen current → wlen (current ++ rem) ≤ cs →
      mergeLoop cs co rem [] current total = (joinDocs (current ++ rem)).toList := by
  intro rem
  induction rem with
  | nil =>
      intro current total _ _
      simp [mergeLoop]
  | cons d rest ih =>
      intro current total ht hb
      have h1 : wlen (current ++ [d]) ≤ wlen (current ++ d :: rest) :=
        wlen_le_of_extend current d rest
      have h2 : wlen (current ++ [d]) =
          if current = [] then d.length else wlen current + d.length + 1 :=
        wlen_append_singleton current d
      have hcond : ¬cs < total + d.length + (if current = [] then 0 else 1) := by
        rw [ht]
        by_cases hc : current = []
        · subst hc
          have hwd : d.length ≤ wlen ([] ++ d :: rest) := by
            simp only [List.nil_append, wlen]
            omega
          have hz : wlen ([] : List (List Char)) = 0 := rfl
          rw [hz, if_pos rfl]
          omega
        · rw [if_neg hc] at h2 ⊢
          omega
      have ht' : total + d.length + (if current = [] then 0 else 1) =
          wlen (current ++ [d]) := by
        rw [ht, h2]
        by_cases hc : current = []
        · subst hc
          simp [wlen]
        · rw [if_neg hc, if_neg hc]
      have hassoc : (current ++ [d]) ++ rest = current ++ d :: rest := by
        rw [List.append_assoc]
        rfl
      simp only [mergeLoop]
      rw [if_neg hcond]
      rw [ih (current ++ [d]) (total + d.length + if current = [] then 0 else 1)
        ht' (by rw [hassoc]; exact hb)]
      rw [hassoc]

/-- When every split is small, the dispatch loop reduces to one merge over the
accumulated run. -/
theorem processLoop_all_small (cs co : Nat) :
    ∀ (splits acc : List (List Char)), (∀ s ∈ splits, s.length < cs) →
      processLoop cs co splits acc =
        if acc ++ splits = [] then [] else mergeLoop cs co (acc ++ splits) [] [] 0 := by
  intro splits
  induction splits with
  | nil =>
      intro acc _
      simp [processLoop]
  | cons s rest ih =>
      intro acc hsmall
      simp only [processLoop]
      rw [if_pos (hsmall s (List.mem_cons_self s rest))]
      rw [ih (acc ++ [s]) fun u hu => hsmall u (List.mem_cons_of_mem s hu)]
      have hassoc : (acc ++ [s]) ++ rest = acc ++ s :: rest := by
        rw [List.append_assoc]
        rfl
      rw [hassoc]

/-- A text is always found in itself at position 0. -/
theorem findFrom_zero_self (s : List Char) : findFrom s s 0 = some 0 := by
  unfold findFrom
  rw [List.range_succ_eq_map]
  apply List.find?_cons_of_pos
  simp [List.take_length]

/-- Python `find` of the whole text in itself from 0 returns 0. -/
theorem pyFind_zero_self (s : List Char) : pyFind s s 0 = 0 := by
  simp only [pyFind]
  norm_num
  rw [findFrom_zero_self]
  rfl

/-- C8 amended: coverage reconstruction is not exact in general (newlines at
chunk boundaries are dropped — see the counterexample — as are blank lines and
stripped whitespace); it is exact in the single-chunk case: for a non-empty,
strip-stable text whose every line is non-empty and shorter than `chunk_size`
and which fits within `chunk_size`, the line-based chunker emits exactly one
chunk carrying the whole text at position (0, len), and concatenating the
non-overlapping portions reconstructs the text exactly. -/
theorem line_based_single_chunk_coverage (cs co : Nat) (base : List (String × MetaVal))
    (log : List Char)
    (hne : log ≠ [])
    (hstrip : pyStrip log = log)
    (hlines : ∀ l ∈ log.splitOn '\n', l ≠ [] ∧ l.length < cs)
    (hfits : log.length ≤ cs) :
    ∃ out : LogChunksR,
      chunk_log_line_based cs co base log = Except.ok out ∧
      out.chunks.map (fun c => c.content) = [log] ∧
      out.chunks.map (fun c => (c.start_index, c.end_index)) =
        [((0 : Int), (log.length : Int))] ∧
      reconstruct out.chunks = log := by
  have hic : List.intercalate ['\n'] (log.splitOn '\n') = log :=
    List.intercalate_splitOn log '\n'
  have hsplits_ne : log.splitOn '\n' ≠ [] := by
    intro h0
    rw [h0] at hic
    exact hne ((rfl : List.intercalate ['\n'] ([] : List (List Char)) = []) ▸ hic).symm
  have hfilter : (log.splitOn '\n').filter (fun s => decide (s ≠ [])) =
      log.splitOn '\n' :=
    List.filter_eq_self.mpr fun a ha => decide_eq_true (hlines a ha).1
  have hwlen : wlen (log.splitOn '\n') = log.length := by
    rw [wlen_eq_intercalate_length, hic]
  have hmerge := mergeLoop_no_trigger cs co (log.splitOn '\n') [] 0 rfl
    (by simp only [List.nil_append]; rw [hwlen]; exact hfits)
  have hjoin : joinDocs (log.splitOn '\n') = some log := by
    simp only [joinDocs]
    rw [hic, hstrip, if_neg hne]
  have hsplit : splitTextLineBased cs co log = [log] := by
    unfold splitTextLineBased
    rw [hfilter]
    rw [processLoop_all_small cs co (log.splitOn '\n') [] fun s hs => (hlines s hs).2]
    simp only [List.nil_append]
    rw [if_neg hsplits_ne]
    rw [show mergeLoop cs co (log.splitOn '\n') [] [] 0 =
      (joinDocs ([] ++ log.splitOn '\n')).toList from hmerge]
    simp only [List.nil_append]
    rw [hjoin]
    rfl
  refine ⟨⟨[⟨"", log, 0, (log.length : Int),
      base ++ [("chunk_number", MetaVal.nat 1),
               ("chunk_strategy", MetaVal.str ("line_based"))]⟩],
      log.length, log.length⟩, ?_, by simp, by simp, ?_⟩
  · unfold chunk_log_line_based
    rw [hsplit]
    unfold chunk_log
    rw [if_neg hne]
    simp only [chunk_log_loop, pyFind_zero_self]
    norm_num
  · show reconstruct [⟨"", log, 0, (log.length : Int),
      base ++ [("chunk_number", MetaVal.nat 1),
               ("chunk_strategy", MetaVal.str ("line_based"))]⟩] = log
    unfold reconstruct dropOverlaps
    simp [dropOverlaps]

/-- Witness for the amended C8: "a\nb" fits in one chunk of size 10, and the
reconstruction is exact there. -/
theorem line_based_single_chunk_coverage_witness :
    ∃ out : LogChunksR,
      chunk_log_line_based 10 0 [] logANB = Except.ok out ∧
      out.chunks.map (fun c => c.content) = [logANB] ∧
      out.chunks.map (fun c => (c.start_index, c.end_index)) =
        [((0 : Int), (logANB.length : Int))] ∧
      reconstruct out.chunks = logANB :=
  line_based_single_chunk_coverage 10 0 [] logANB (by decide) (by decide)
    (by decide) (by decide)
